import Mathlib

/-!
Verification development for the toggl-watcher repository (Go package status
and the findtest prototype). The definitions below are shallow embeddings of
the Go source: pure functions model the corresponding Go functions, stateful
code is modelled by explicit state passing and operation traces. The Go
standard library routines the code calls (encoding/json on a
map[string]string, path.Clean, path.Join, filepath.Walk) are modelled by
executable Lean functions following their documented semantics.
-/

namespace TogglWatcher

/-! ## Basic association list utilities (models of Go map operations) -/

/-- Model of reading a Go map: the value stored at the first matching key. -/
def lookupKey {α β : Type} [DecidableEq α] (k : α) : List (α × β) → Option β
  | [] => none
  | (a, b) :: rest => if a = k then some b else lookupKey k rest

/-- Model of Go map delete: remove every entry stored at the key. -/
def eraseKey {α β : Type} [DecidableEq α] (k : α) (l : List (α × β)) : List (α × β) :=
  l.filter (fun p => decide (p.1 ≠ k))

theorem lookupKey_eq_none_iff {α β : Type} [DecidableEq α] (k : α) (l : List (α × β)) :
    lookupKey k l = none ↔ ∀ p ∈ l, p.1 ≠ k := by
  induction l with
  | nil => simp [lookupKey]
  | cons ab rest ih =>
    obtain ⟨a, b⟩ := ab
    by_cases hak : a = k
    · simp [lookupKey, hak]
    · simp [lookupKey, hak, ih]

theorem eraseKey_eraseKey {α β : Type} [DecidableEq α] (k : α) (l : List (α × β)) :
    eraseKey k (eraseKey k l) = eraseKey k l := by
  simp [eraseKey, List.filter_filter]

theorem eraseKey_of_not_mem {α β : Type} [DecidableEq α] (k : α) (l : List (α × β))
    (h : lookupKey k l = none) : eraseKey k l = l := by
  rw [eraseKey, List.filter_eq_self]
  intro p hp
  exact decide_eq_true ((lookupKey_eq_none_iff k l).mp h p hp)

theorem lookup_eraseKey_self {α β : Type} [DecidableEq α] (k : α) (l : List (α × β)) :
    lookupKey k (eraseKey k l) = none := by
  rw [lookupKey_eq_none_iff]
  intro p hp
  have := List.of_mem_filter hp
  simpa using this

/-- Lexicographic order on character lists, by code point: the order in
which the Go json encoder sorts map keys. -/
def strLtChars : List Char → List Char → Bool
  | [], [] => false
  | [], _ :: _ => true
  | _ :: _, [] => false
  | a :: as, b :: bs =>
    if a.toNat < b.toNat then true
    else if b.toNat < a.toNat then false
    else strLtChars as bs

def strLt (a b : String) : Bool := strLtChars a.data b.data

/-- Model of Go map insert, keeping the association list sorted by key.
A Go map is unordered; its canonical model here is the key-sorted
association list, which is also the order in which encoding/json
serializes map keys. -/
def insertKeySorted (k v : String) : List (String × String) → List (String × String)
  | [] => [(k, v)]
  | (a, b) :: rest =>
    if k = a then (k, v) :: rest
    else if strLt k a then (k, v) :: (a, b) :: rest
    else (a, b) :: insertKeySorted k v rest

/-! ## Named characters used throughout the json layer: the string
delimiter, the escape character, the object delimiters and the record
separator the Encode call appends. -/

def quoteChar : Char := Char.ofNat 34

def backslashChar : Char := Char.ofNat 92

def lbraceChar : Char := Char.ofNat 123

def rbraceChar : Char := Char.ofNat 125

def newlineChar : Char := Char.ofNat 10

/-! ## encoding/json string escaping, as the Go encoder emits it
(HTML escaping enabled, the default used by json.Marshal and
json.NewEncoder in Watch.MarshalJSON and Watch.AddWatch). -/

def hexDigitChar (n : Nat) : Char :=
  if n < 10 then Char.ofNat (48 + n) else Char.ofNat (87 + n)

def jsonEscapeChar (c : Char) : List Char :=
  if c = quoteChar then [backslashChar, quoteChar]
  else if c = backslashChar then [backslashChar, backslashChar]
  else if c = Char.ofNat 10 then [backslashChar, 'n']
  else if c = Char.ofNat 13 then [backslashChar, 'r']
  else if c = Char.ofNat 9 then [backslashChar, 't']
  else if c.toNat < 32 ∨ c = '<' ∨ c = '>' ∨ c = '&' then
    [backslashChar, 'u', '0', '0', hexDigitChar (c.toNat / 16), hexDigitChar (c.toNat % 16)]
  else if c.toNat = 8232 ∨ c.toNat = 8233 then
    [backslashChar, 'u', '2', '0', '2', hexDigitChar (c.toNat % 16)]
  else [c]

def jsonEscape (s : List Char) : List Char := (s.map jsonEscapeChar).flatten

/-- Value of a hexadecimal digit character, as the json decoder reads it. -/
def hexVal (c : Char) : Option Nat :=
  if 48 ≤ c.toNat ∧ c.toNat ≤ 57 then some (c.toNat - 48)
  else if 97 ≤ c.toNat ∧ c.toNat ≤ 102 then some (c.toNat - 87)
  else if 65 ≤ c.toNat ∧ c.toNat ≤ 70 then some (c.toNat - 55)
  else none

/-- Model of the json decoder reading a string body: the input starts just
after the opening quote; the result is the decoded text and the input
remaining after the closing quote. Covers the escape forms that the Go
encoder emits. -/
def jsonUnescapeString : List Char → Option (List Char × List Char)
  | [] => none
  | c :: rest =>
    if c = quoteChar then some ([], rest)
    else if c = backslashChar then
      match rest with
      | [] => none
      | e :: rest2 =>
        if e = quoteChar ∨ e = backslashChar ∨ e = '/' then
          (jsonUnescapeString rest2).map (fun p => (e :: p.1, p.2))
        else if e = 'n' then
          (jsonUnescapeString rest2).map (fun p => (Char.ofNat 10 :: p.1, p.2))
        else if e = 'r' then
          (jsonUnescapeString rest2).map (fun p => (Char.ofNat 13 :: p.1, p.2))
        else if e = 't' then
          (jsonUnescapeString rest2).map (fun p => (Char.ofNat 9 :: p.1, p.2))
        else if e = 'u' then
          match rest2 with
          | h1 :: h2 :: h3 :: h4 :: rest3 =>
            match hexVal h1, hexVal h2, hexVal h3, hexVal h4 with
            | some a, some b, some c2, some d =>
              (jsonUnescapeString rest3).map
                (fun p => (Char.ofNat (4096 * a + 256 * b + 16 * c2 + d) :: p.1, p.2))
            | _, _, _, _ => none
          | _ => none
        else none
    else (jsonUnescapeString rest).map (fun p => (c :: p.1, p.2))

theorem hexVal_hexDigitChar (d : Nat) (hd : d < 16) : hexVal (hexDigitChar d) = some d := by
  interval_cases d <;> rfl

theorem unescape_quote (t : List Char) : jsonUnescapeString (quoteChar :: t) = some ([], t) := by
  rw [jsonUnescapeString.eq_def]
  simp

theorem unescape_plain (c : Char) (t : List Char) (h1 : ¬ c = quoteChar)
    (h2 : ¬ c = backslashChar) :
    jsonUnescapeString (c :: t) = (jsonUnescapeString t).map (fun p => (c :: p.1, p.2)) := by
  rw [jsonUnescapeString.eq_def]
  simp [h1, h2]

theorem unescape_esc2 (e : Char) (t : List Char)
    (he : e = quoteChar ∨ e = backslashChar ∨ e = '/') :
    jsonUnescapeString (backslashChar :: e :: t) =
      (jsonUnescapeString t).map (fun p => (e :: p.1, p.2)) := by
  rw [jsonUnescapeString.eq_def]
  have hbq : ¬ (backslashChar = quoteChar) := by decide
  simp [hbq, he]

theorem unescape_esc_n (t : List Char) :
    jsonUnescapeString (backslashChar :: 'n' :: t) =
      (jsonUnescapeString t).map (fun p => (Char.ofNat 10 :: p.1, p.2)) := by
  rw [jsonUnescapeString.eq_def]
  simp [quoteChar, backslashChar]

theorem unescape_esc_r (t : List Char) :
    jsonUnescapeString (backslashChar :: 'r' :: t) =
      (jsonUnescapeString t).map (fun p => (Char.ofNat 13 :: p.1, p.2)) := by
  rw [jsonUnescapeString.eq_def]
  simp [quoteChar, backslashChar]

theorem unescape_esc_t (t : List Char) :
    jsonUnescapeString (backslashChar :: 't' :: t) =
      (jsonUnescapeString t).map (fun p => (Char.ofNat 9 :: p.1, p.2)) := by
  rw [jsonUnescapeString.eq_def]
  simp [quoteChar, backslashChar]

theorem unescape_esc_u (h1 h2 h3 h4 : Char) (a b c2 d : Nat) (t : List Char)
    (e1 : hexVal h1 = some a) (e2 : hexVal h2 = some b) (e3 : hexVal h3 = some c2)
    (e4 : hexVal h4 = some d) :
    jsonUnescapeString (backslashChar :: 'u' :: h1 :: h2 :: h3 :: h4 :: t) =
      (jsonUnescapeString t).map
        (fun p => (Char.ofNat (4096 * a + 256 * b + 16 * c2 + d) :: p.1, p.2)) := by
  rw [jsonUnescapeString.eq_def]
  simp [quoteChar, backslashChar, e1, e2, e3, e4]

theorem jsonUnescape_escape (s t : List Char) :
    jsonUnescapeString (jsonEscape s ++ quoteChar :: t) = some (s, t) := by
  induction s with
  | nil =>
    simp only [jsonEscape, List.map_nil, List.flatten_nil, List.nil_append]
    exact unescape_quote t
  | cons c s ih =>
    have hesc : jsonEscape (c :: s) = jsonEscapeChar c ++ jsonEscape s := by
      simp [jsonEscape]
    rw [hesc, List.append_assoc]
    by_cases h1 : c = quoteChar
    · rw [show jsonEscapeChar c = [backslashChar, quoteChar] from by rw [h1]; decide]
      rw [List.cons_append, List.cons_append, List.nil_append,
        unescape_esc2 _ _ (Or.inl rfl), ih, h1]
      rfl
    · by_cases h2 : c = backslashChar
      · rw [show jsonEscapeChar c = [backslashChar, backslashChar] from by rw [h2]; decide]
        rw [List.cons_append, List.cons_append, List.nil_append,
          unescape_esc2 _ _ (Or.inr (Or.inl rfl)), ih, h2]
        rfl
      · by_cases h3 : c = Char.ofNat 10
        · rw [show jsonEscapeChar c = [backslashChar, 'n'] from by rw [h3]; decide]
          rw [List.cons_append, List.cons_append, List.nil_append, unescape_esc_n, ih, h3]
          rfl
        · by_cases h4 : c = Char.ofNat 13
          · rw [show jsonEscapeChar c = [backslashChar, 'r'] from by rw [h4]; decide]
            rw [List.cons_append, List.cons_append, List.nil_append, unescape_esc_r, ih, h4]
            rfl
          · by_cases h5 : c = Char.ofNat 9
            · rw [show jsonEscapeChar c = [backslashChar, 't'] from by rw [h5]; decide]
              rw [List.cons_append, List.cons_append, List.nil_append, unescape_esc_t, ih, h5]
              rfl
            · by_cases h6 : c.toNat < 32 ∨ c = '<' ∨ c = '>' ∨ c = '&'
              · have hlt : c.toNat < 256 := by
                  rcases h6 with h | h | h | h
                  · omega
                  all_goals simp [h]
                have hdiv : c.toNat / 16 < 16 := by omega
                have hmod : c.toNat % 16 < 16 := by omega
                rw [show jsonEscapeChar c =
                    [backslashChar, 'u', '0', '0', hexDigitChar (c.toNat / 16),
                      hexDigitChar (c.toNat % 16)] from by
                  simp only [jsonEscapeChar, if_neg h1, if_neg h2, if_neg h3, if_neg h4,
                    if_neg h5, if_pos h6]]
                simp only [List.cons_append, List.nil_append]
                rw [unescape_esc_u _ _ _ _ 0 0 (c.toNat / 16) (c.toNat % 16) _ (by rfl) (by rfl)
                  (hexVal_hexDigitChar _ hdiv) (hexVal_hexDigitChar _ hmod), ih]
                have hval : 4096 * 0 + 256 * 0 + 16 * (c.toNat / 16) + c.toNat % 16 = c.toNat := by
                  omega
                rw [hval, Char.ofNat_toNat]
                rfl
              · by_cases h7 : c.toNat = 8232 ∨ c.toNat = 8233
                · have hmod : c.toNat % 16 < 16 := by omega
                  rw [show jsonEscapeChar c =
                      [backslashChar, 'u', '2', '0', '2', hexDigitChar (c.toNat % 16)] from by
                    simp only [jsonEscapeChar, if_neg h1, if_neg h2, if_neg h3, if_neg h4,
                      if_neg h5, if_neg h6, if_pos h7]]
                  simp only [List.cons_append, List.nil_append]
                  rw [unescape_esc_u _ _ _ _ 2 0 2 (c.toNat % 16) _ (by rfl) (by rfl) (by rfl)
                    (hexVal_hexDigitChar _ hmod), ih]
                  have hval : 4096 * 2 + 256 * 0 + 16 * 2 + c.toNat % 16 = c.toNat := by omega
                  rw [hval, Char.ofNat_toNat]
                  rfl
                · rw [show jsonEscapeChar c = [c] from by
                    simp only [jsonEscapeChar, if_neg h1, if_neg h2, if_neg h3, if_neg h4,
                      if_neg h5, if_neg h6, if_neg h7]]
                  rw [List.cons_append, List.nil_append, unescape_plain c _ h1 h2, ih]
                  rfl

/-! ## Serialization of the root registry.

Watch.MarshalJSON returns json.Marshal(w.rootWatches), a map from root
path to project label; json.Marshal emits the keys of a map in sorted
order, so the registry is modelled as a key-sorted association list and
marshalRegistry emits the pairs in list order. Watch.UnmarshalJSON calls
json.Unmarshal(data, ...) into the map, modelled by parseRegistry.
json.NewEncoder(...).Encode appends a trailing newline, and the decoder
used in Start reads exactly one value, ignoring trailing input. -/

def marshalPair (kv : String × String) : List Char :=
  quoteChar :: jsonEscape kv.1.data ++ quoteChar :: ':' ::
    quoteChar :: jsonEscape kv.2.data ++ [quoteChar]

def marshalMembers : List (String × String) → List Char
  | [] => []
  | [kv] => marshalPair kv
  | kv :: rest => marshalPair kv ++ ',' :: marshalMembers rest

def marshalRegistry (m : List (String × String)) : List Char :=
  lbraceChar :: marshalMembers m ++ [rbraceChar]

/-- Model of json.NewEncoder(w.stateFile).Encode(w): the marshalled
registry followed by a newline. -/
def encodeRegistryChars (m : List (String × String)) : List Char :=
  marshalRegistry m ++ [newlineChar]

def encodeRegistry (m : List (String × String)) : String :=
  String.mk (encodeRegistryChars m)

/-- Parser for the members of a non-empty json object of strings. The
input starts at the opening quote of the first key; fuel bounds the
recursion depth. -/
def parseMembers (fuel : Nat) (l : List Char) : Option (List (String × String) × List Char) :=
  match fuel with
  | 0 => none
  | fuel + 1 =>
    match l with
    | [] => none
    | c :: rest =>
      if c = quoteChar then
        match jsonUnescapeString rest with
        | none => none
        | some (k, r1) =>
          match r1 with
          | c1 :: c2 :: r2 =>
            if c1 = ':' ∧ c2 = quoteChar then
              match jsonUnescapeString r2 with
              | none => none
              | some (v, r3) =>
                match r3 with
                | [] => none
                | c3 :: r4 =>
                  if c3 = ',' then
                    (parseMembers fuel r4).map
                      (fun p => ((String.mk k, String.mk v) :: p.1, p.2))
                  else if c3 = rbraceChar then some ([(String.mk k, String.mk v)], r4)
                  else none
            else none
          | _ => none
      else none

/-- Model of json.Unmarshal of a map from string to string (the body of
Watch.UnmarshalJSON). Trailing input after the object is ignored, as the
json decoder used in Start reads a single value from the state file. -/
def parseRegistry (l : List Char) : Option (List (String × String)) :=
  match l with
  | [] => none
  | c :: rest =>
    if c = lbraceChar then
      match rest with
      | [] => none
      | c2 :: _ =>
        if c2 = rbraceChar then some []
        else (parseMembers rest.length rest).map Prod.fst
    else none

def decodeRegistry (s : String) : Option (List (String × String)) :=
  parseRegistry s.data

theorem string_mk_data (s : String) : String.mk s.data = s := rfl

theorem marshalPair_ne_nil (kv : String × String) : marshalPair kv ≠ [] := by
  simp [marshalPair]

theorem length_le_marshalMembers (m : List (String × String)) (r : List Char) :
    m.length ≤ (marshalMembers m ++ r).length := by
  induction m generalizing r with
  | nil => simp
  | cons kv rest ih =>
    cases rest with
    | nil => simp [marshalMembers, marshalPair]
    | cons kv2 rest2 =>
      have h := ih (r := r)
      rw [show marshalMembers (kv :: kv2 :: rest2) = marshalPair kv ++ ',' ::
        marshalMembers (kv2 :: rest2) from rfl]
      simp only [List.append_assoc, List.cons_append, List.length_append,
        List.length_cons] at h ⊢
      omega

theorem parseMembers_marshal (m : List (String × String)) (rest : List Char) (fuel : Nat)
    (hm : m ≠ []) (hf : m.length ≤ fuel) :
    parseMembers fuel (marshalMembers m ++ rbraceChar :: rest) = some (m, rest) := by
  induction m generalizing fuel rest with
  | nil => exact absurd rfl hm
  | cons kv tail ih =>
    obtain ⟨fuel, rfl⟩ : ∃ f, fuel = f + 1 := by
      cases fuel with
      | zero => simp at hf
      | succ f => exact ⟨f, rfl⟩
    have hb1 : ¬ (rbraceChar = ',') := by decide
    have hc1 : (':' = ':' ∧ quoteChar = quoteChar) := ⟨rfl, rfl⟩
    cases tail with
    | nil =>
      rw [show marshalMembers [kv] ++ rbraceChar :: rest =
        quoteChar :: (jsonEscape kv.1.data ++ quoteChar :: (':' :: quoteChar ::
          (jsonEscape kv.2.data ++ quoteChar :: (rbraceChar :: rest)))) from by
        simp [marshalMembers, marshalPair]]
      rw [parseMembers.eq_def]
      dsimp only
      rw [if_pos rfl, jsonUnescape_escape]
      dsimp only
      rw [if_pos hc1, jsonUnescape_escape]
      dsimp only
      rw [if_neg hb1, if_pos rfl]
    | cons kv2 tail2 =>
      rw [show marshalMembers (kv :: kv2 :: tail2) ++ rbraceChar :: rest =
        quoteChar :: (jsonEscape kv.1.data ++ quoteChar :: (':' :: quoteChar ::
          (jsonEscape kv.2.data ++ quoteChar :: (',' ::
            (marshalMembers (kv2 :: tail2) ++ rbraceChar :: rest))))) from by
        rw [show marshalMembers (kv :: kv2 :: tail2) = marshalPair kv ++ ',' ::
          marshalMembers (kv2 :: tail2) from rfl]
        simp [marshalPair]]
      rw [parseMembers.eq_def]
      dsimp only
      rw [if_pos rfl, jsonUnescape_escape]
      dsimp only
      rw [if_pos hc1, jsonUnescape_escape]
      dsimp only
      rw [if_pos rfl]
      have hfl : (kv2 :: tail2).length ≤ fuel := by
        simp only [List.length_cons] at hf ⊢
        omega
      rw [ih rest fuel (by simp) hfl]
      rfl

theorem marshalMembers_cons_shape (kv : String × String) (tail : List (String × String)) :
    ∃ t, marshalMembers (kv :: tail) = quoteChar :: t := by
  cases tail with
  | nil =>
    exact ⟨jsonEscape kv.1.data ++ quoteChar :: ':' :: quoteChar ::
      jsonEscape kv.2.data ++ [quoteChar], by simp [marshalMembers, marshalPair]⟩
  | cons kv2 t2 =>
    refine ⟨jsonEscape kv.1.data ++ quoteChar :: ':' :: quoteChar ::
      jsonEscape kv.2.data ++ [quoteChar] ++ ',' :: marshalMembers (kv2 :: t2), ?_⟩
    rw [show marshalMembers (kv :: kv2 :: t2) = marshalPair kv ++ ',' ::
      marshalMembers (kv2 :: t2) from rfl]
    simp [marshalPair]

/-- C9 underlying fact: decoding an encoded registry gives back the same
association list. -/
theorem decode_encode_registry (m : List (String × String)) :
    decodeRegistry (encodeRegistry m) = some m := by
  cases m with
  | nil =>
    rfl
  | cons kv tail =>
    rw [decodeRegistry, encodeRegistry, string_mk_data]
    rw [encodeRegistryChars, marshalRegistry]
    rw [show (lbraceChar :: marshalMembers (kv :: tail) ++ [rbraceChar]) ++ [newlineChar] =
      lbraceChar :: (marshalMembers (kv :: tail) ++ rbraceChar :: [newlineChar]) from by simp]
    obtain ⟨t, ht⟩ := marshalMembers_cons_shape kv tail
    have hfuel : (kv :: tail).length ≤
        (marshalMembers (kv :: tail) ++ rbraceChar :: [newlineChar]).length :=
      length_le_marshalMembers _ _
    rw [parseRegistry.eq_def]
    simp only [ht, List.cons_append, if_pos rfl]
    have hqb : ¬ (quoteChar = rbraceChar) := by decide
    rw [if_neg hqb]
    rw [show quoteChar :: (t ++ rbraceChar :: [newlineChar]) =
      marshalMembers (kv :: tail) ++ rbraceChar :: [newlineChar] from by rw [ht]; rfl]
    rw [parseMembers_marshal (kv :: tail) [newlineChar] _ (by simp)
      (by simpa [ht] using hfuel)]
    rfl

/-- An association list whose keys are strictly increasing: the canonical
representation of a finite Go map, and the key order the json encoder emits. -/
def sortedKeys : List (String × String) → Bool
  | [] => true
  | [_] => true
  | a :: b :: rest => strLt a.1 b.1 && sortedKeys (b :: rest)

/-- C9: For every root registry (a finite map from path string to label
string, modelled by its canonical key-sorted association list, the order in
which the Go json encoder emits map keys), serializing it (Watch.MarshalJSON
plus the Encode call in Watch.AddWatch) and then deserializing the result
(Watch.UnmarshalJSON, as invoked from Start) reproduces an identical
path to label mapping. -/
theorem C9_registry_roundtrip (m : List (String × String))
    (_hsorted : sortedKeys m = true) :
    decodeRegistry (encodeRegistry m) = some m :=
  decode_encode_registry m

theorem C9_registry_roundtrip_witness :
    sortedKeys [("/home/user/proj", "alpha"), ("/tmp/p", "beta")] = true ∧
    decodeRegistry (encodeRegistry [("/home/user/proj", "alpha"), ("/tmp/p", "beta")]) =
      some [("/home/user/proj", "alpha"), ("/tmp/p", "beta")] :=
  ⟨by decide, C9_registry_roundtrip _ (by decide)⟩

/-! ## A model of the filesystem tree, used by the walk in Watch.addWatch -/

/-- A directory entry: a plain file or a directory with its listing. The
children list models the result of reading the directory. -/
inductive FsNode where
  | file (name : String)
  | dir (name : String) (children : List FsNode)

def FsNode.name : FsNode → String
  | .file n => n
  | .dir n _ => n

/-! ## Watch.AddWatch: registry update, persistence and monitor install.

Watch.AddWatch(dir, project) first updates the in-memory map and rewrites
the state file (Seek(0), Truncate(0), Encode), and only afterwards calls
w.addWatch(dir), which walks the directory and installs the inotify
monitors. The filesystem walk itself is modelled separately below; here
the whole w.addWatch(dir) call is one trace element. When dir does not
exist, filepath.Walk invokes the walk callback with a nil FileInfo and a
non-nil error; the callback in Watch.addWatch immediately calls
info.IsDir() without checking the error, dereferencing the nil interface,
which is a runtime panic. -/

inductive AOp where
  | seekStart
  | truncate
  | writeFile (contents : String)
  | installMonitor (dir : String)
deriving DecidableEq

inductive AddWatchOutcome where
  | ok
  | runtimePanicNilFileInfo
deriving DecidableEq

structure WState where
  rootWatches : List (String × String)
  fileContents : String
deriving DecidableEq

structure AddWatchResult where
  outcome : AddWatchOutcome
  state : WState
  ops : List AOp
deriving DecidableEq

/-- The file operations AddWatch performs on the open state file to persist
the registry: Seek(0), Truncate(0), then the json Encode write. -/
def persistOps (m : List (String × String)) : List AOp :=
  [.seekStart, .truncate, .writeFile (encodeRegistry m)]

/-- Model of Watch.AddWatch. The filesystem is the table of existing root
paths; inotify registration itself is assumed to succeed. -/
def AddWatch (fs : List (String × FsNode)) (st : WState) (dir project : String) :
    AddWatchResult :=
  let already : Bool := (lookupKey dir st.rootWatches).isSome
  let changedProject : Bool :=
    already && decide (lookupKey dir st.rootWatches ≠ some project)
  let stOps :=
    if !already || changedProject then
      let m := insertKeySorted dir project st.rootWatches
      (WState.mk m (encodeRegistry m), persistOps m)
    else (st, ([] : List AOp))
  if !already then
    match lookupKey dir fs with
    | none => ⟨.runtimePanicNilFileInfo, stOps.1, stOps.2⟩
    | some _ => ⟨.ok, stOps.1, stOps.2 ++ [.installMonitor dir]⟩
  else ⟨.ok, stOps.1, stOps.2⟩

/-- Contents of the state file after one file operation. Truncate(0) empties
the file; the Encode write then rewrites it from offset zero (the Seek(0)
that AddWatch issued). -/
def applyAOp (contents : String) : AOp → String
  | .seekStart => contents
  | .truncate => ""
  | .writeFile s => s
  | .installMonitor _ => contents

/-- Every file content a concurrent reader of the state file could observe
while the operations run: the contents before the first operation and after
each one. -/
def statesDuring (contents : String) : List AOp → List String
  | [] => [contents]
  | op :: rest => contents :: statesDuring (applyAOp contents op) rest

/-- Replace-the-file-entirely semantics: at every instant a reader sees
either the previous complete contents or the new complete contents. -/
def atomicReplacement (old new : String) (ops : List AOp) : Prop :=
  ∀ s ∈ statesDuring old ops, s = old ∨ s = new

theorem lookup_insertKeySorted (k v : String) (m : List (String × String)) :
    lookupKey k (insertKeySorted k v m) = some v := by
  induction m with
  | nil => simp [insertKeySorted, lookupKey]
  | cons ab rest ih =>
    obtain ⟨a, b⟩ := ab
    by_cases hka : k = a
    · simp [insertKeySorted, hka, lookupKey]
    · have hak : ¬ (a = k) := fun h => hka h.symm
      cases hlt : strLt k a with
      | true => simp [insertKeySorted, hka, hlt, lookupKey]
      | false => simp [insertKeySorted, hka, hlt, lookupKey, hak, ih]

/-- C3 amended: every persist of the registry in Watch.AddWatch rewrites the
open state file in place, by Seek(0), Truncate(0) and a fresh Encode; the
truncation step makes an empty file observable between the truncate and the
write, so the write is truncate-in-place, not an atomic replacement. -/
theorem C3_truncate_in_place (old : String) (m : List (String × String)) :
    statesDuring old (persistOps m) = [old, old, "", encodeRegistry m] ∧
    AOp.truncate ∈ persistOps m := by
  exact ⟨rfl, by simp [persistOps]⟩

/-- C3 counterexample: the claim says no reader can observe a half-written
registry file; with the previous registry containing one root and the new
registry two, the empty file observable after Truncate(0) is neither the
old nor the new contents, so the write is not replace-the-file-entirely. -/
theorem C3_counterexample :
    ¬ atomicReplacement (encodeRegistry [("/a", "x")])
      (encodeRegistry [("/a", "x"), ("/b", "y")])
      (persistOps [("/a", "x"), ("/b", "y")]) := by
  intro h
  have h2 := h "" (by decide)
  rcases h2 with h2 | h2 <;> revert h2 <;> decide

/-- C4 amended: installing a root whose path does not exist first inserts the
root into the in-memory registry and persists the updated registry to the
state file, and only then fails: the walk callback dereferences the nil
FileInfo that filepath.Walk passes for a missing root, a runtime panic
rather than a returned NotFound error. -/
theorem C4_missing_root_behaviour (fs : List (String × FsNode)) (st : WState)
    (dir project : String) (hfs : lookupKey dir fs = none)
    (hnew : lookupKey dir st.rootWatches = none) :
    AddWatch fs st dir project =
      ⟨.runtimePanicNilFileInfo,
        ⟨insertKeySorted dir project st.rootWatches,
          encodeRegistry (insertKeySorted dir project st.rootWatches)⟩,
        persistOps (insertKeySorted dir project st.rootWatches)⟩ ∧
    lookupKey dir (AddWatch fs st dir project).state.rootWatches = some project := by
  have h1 : (lookupKey dir st.rootWatches).isSome = false := by rw [hnew]; rfl
  have hmain : AddWatch fs st dir project =
      ⟨.runtimePanicNilFileInfo,
        ⟨insertKeySorted dir project st.rootWatches,
          encodeRegistry (insertKeySorted dir project st.rootWatches)⟩,
        persistOps (insertKeySorted dir project st.rootWatches)⟩ := by
    simp [AddWatch, h1, hfs]
  refine ⟨hmain, ?_⟩
  rw [hmain]
  exact lookup_insertKeySorted dir project st.rootWatches

theorem C4_missing_root_behaviour_witness :
    lookupKey "/x" ([] : List (String × FsNode)) = none ∧
    lookupKey "/x" (WState.mk [] (encodeRegistry [])).rootWatches = none ∧
    (AddWatch [] (WState.mk [] (encodeRegistry [])) "/x" "proj" =
      ⟨.runtimePanicNilFileInfo,
        ⟨insertKeySorted "/x" "proj" [],
          encodeRegistry (insertKeySorted "/x" "proj" [])⟩,
        persistOps (insertKeySorted "/x" "proj" [])⟩ ∧
      lookupKey "/x"
        (AddWatch [] (WState.mk [] (encodeRegistry [])) "/x" "proj").state.rootWatches =
        some "proj") :=
  ⟨rfl, rfl, C4_missing_root_behaviour [] _ "/x" "proj" rfl rfl⟩

/-- C4 counterexample: adding the missing root "/x" does add it to the
in-memory registry and does change the persisted state file, and the failure
is a runtime panic, not a NotFound error returned to the caller; so the
claimed no-partial-state behaviour is false on the code. -/
theorem C4_counterexample :
    lookupKey "/x"
      (AddWatch [] (WState.mk [] (encodeRegistry [])) "/x" "proj").state.rootWatches =
      some "proj" ∧
    (AddWatch [] (WState.mk [] (encodeRegistry [])) "/x" "proj").state.fileContents ≠
      encodeRegistry [] ∧
    (AddWatch [] (WState.mk [] (encodeRegistry [])) "/x" "proj").outcome =
      AddWatchOutcome.runtimePanicNilFileInfo := by
  refine ⟨by decide, by decide, by decide⟩

/-- C5: for every AddWatch call that adds a new root, any monitor
installation in its operation trace happens strictly after the durable
write of the updated root registry. -/
theorem C5_persist_before_install (fs : List (String × FsNode)) (st : WState)
    (dir project : String) (hnew : lookupKey dir st.rootWatches = none) :
    ∀ k, (AddWatch fs st dir project).ops.get? k = some (.installMonitor dir) →
      ∃ j, j < k ∧ (AddWatch fs st dir project).ops.get? j =
        some (.writeFile (encodeRegistry (insertKeySorted dir project st.rootWatches))) := by
  have h1 : (lookupKey dir st.rootWatches).isSome = false := by rw [hnew]; rfl
  cases hfs : lookupKey dir fs with
  | none =>
    have hops : (AddWatch fs st dir project).ops =
        persistOps (insertKeySorted dir project st.rootWatches) := by
      simp [AddWatch, h1, hfs]
    intro k hk
    rw [hops] at hk
    exfalso
    rcases k with _ | _ | _ | k <;> simp [persistOps, List.get?] at hk
  | some node =>
    have hops : (AddWatch fs st dir project).ops =
        persistOps (insertKeySorted dir project st.rootWatches) ++
          [AOp.installMonitor dir] := by
      simp [AddWatch, h1, hfs]
    intro k hk
    rw [hops] at hk
    rcases k with _ | _ | _ | _ | k
    · simp [persistOps, List.get?] at hk
    · simp [persistOps, List.get?] at hk
    · simp [persistOps, List.get?] at hk
    · exact ⟨2, by omega, by rw [hops]; rfl⟩
    · simp [persistOps, List.get?] at hk

theorem C5_persist_before_install_witness :
    lookupKey "/x" (WState.mk [] (encodeRegistry [])).rootWatches = none ∧
    (∀ k, (AddWatch [("/x", FsNode.dir "x" [])]
        (WState.mk [] (encodeRegistry [])) "/x" "proj").ops.get? k =
        some (.installMonitor "/x") →
      ∃ j, j < k ∧ (AddWatch [("/x", FsNode.dir "x" [])]
          (WState.mk [] (encodeRegistry [])) "/x" "proj").ops.get? j =
        some (.writeFile (encodeRegistry (insertKeySorted "/x" "proj" [])))) :=
  ⟨rfl, C5_persist_before_install _ _ _ _ rfl⟩

/-! ## Go path.Clean and path.Join, modelled over character lists.

path.Clean is modelled by its standard specification: split on slashes,
drop empty and dot components, resolve dot-dot components against a stack
(dropping them at the root for rooted paths), and rejoin; the result is
dot for an empty outcome of a relative path. path.Join skips empty
elements, joins the rest with a slash and Cleans the result. -/

def splitOnChar (sep : Char) : List Char → List (List Char)
  | [] => [[]]
  | c :: rest =>
    match splitOnChar sep rest with
    | [] => [[]]
    | h :: t => if c = sep then [] :: h :: t else (c :: h) :: t

def cleanStack (rooted : Bool) : List (List Char) → List (List Char) → List (List Char)
  | acc, [] => acc.reverse
  | acc, c :: rest =>
    if c = [] ∨ c = ['.'] then cleanStack rooted acc rest
    else if c = ['.', '.'] then
      match acc with
      | [] => if rooted then cleanStack rooted [] rest else cleanStack rooted [['.', '.']] rest
      | _ :: as =>
        if acc.head? = some ['.', '.'] then cleanStack rooted (c :: acc) rest
        else cleanStack rooted as rest
    else cleanStack rooted (c :: acc) rest

def joinComps : List (List Char) → List Char
  | [] => []
  | [c] => c
  | c :: rest => c ++ '/' :: joinComps rest

def goCleanChars (l : List Char) : List Char :=
  match l with
  | [] => ['.']
  | c :: _ =>
    let rooted : Bool := c = '/'
    let comps := cleanStack rooted [] (splitOnChar '/' l)
    let s := joinComps comps
    if rooted then '/' :: s
    else if s = [] then ['.'] else s

def goClean (s : String) : String := String.mk (goCleanChars s.data)

def goJoin (a b : String) : String :=
  if a = "" then (if b = "" then "" else goClean b)
  else goClean (String.mk (a.data ++ '/' :: b.data))

/-! ## Watch.readEvents: retirement of self-delete and self-move events.

For an event whose mask includes IN_MOVE_SELF or IN_DELETE_SELF, readEvents
computes path := p.Clean(p.Join(w.wdToPath[event.Wd], name)) (reading a
missing map entry yields the empty string, and self events carry an empty
name), then deletes wdToPath[event.Wd] and rootWatches[path]. -/

structure WatchMaps where
  wdToPath : List (Int × String)
  rootWatches : List (String × String)
deriving DecidableEq

/-- The path readEvents associates with an event. -/
def eventPath (st : WatchMaps) (wd : Int) (name : String) : String :=
  goClean (goJoin ((lookupKey wd st.wdToPath).getD "") name)

/-- Processing of one self-delete or self-move notification in readEvents:
both map entries for the event are deleted. -/
def retireSelf (st : WatchMaps) (wd : Int) (name : String) : WatchMaps :=
  ⟨eraseKey wd st.wdToPath, eraseKey (eventPath st wd name) st.rootWatches⟩

theorem eventPath_missing (st : WatchMaps) (wd : Int)
    (h : lookupKey wd st.wdToPath = none) : eventPath st wd "" = "." := by
  rw [eventPath, h]
  rfl

/-- C7: processing a self-delete or self-move notification removes both the
handle-keyed entry and the path-keyed entry for the event, and processing a
duplicate retirement notice for the same handle leaves the maps unchanged,
provided the registry holds no root at the path "." (the path to which a
duplicate notice resolves once the handle entry is already gone). -/
theorem C7_retire_removes_and_idempotent (st : WatchMaps) (wd : Int)
    (hdot : lookupKey "." st.rootWatches = none) :
    lookupKey wd (retireSelf st wd "").wdToPath = none ∧
    lookupKey (eventPath st wd "") (retireSelf st wd "").rootWatches = none ∧
    retireSelf (retireSelf st wd "") wd "" = retireSelf st wd "" := by
  refine ⟨lookup_eraseKey_self _ _, lookup_eraseKey_self _ _, ?_⟩
  have hpath2 : eventPath (retireSelf st wd "") wd "" = "." :=
    eventPath_missing _ _ (lookup_eraseKey_self _ _)
  have hdot2 : lookupKey "." (eraseKey (eventPath st wd "") st.rootWatches) = none := by
    rw [lookupKey_eq_none_iff]
    intro p hp
    exact (lookupKey_eq_none_iff "." st.rootWatches).mp hdot p (List.mem_of_mem_filter hp)
  show WatchMaps.mk _ _ = WatchMaps.mk _ _
  rw [hpath2]
  rw [show (retireSelf st wd "").wdToPath = eraseKey wd st.wdToPath from rfl,
    show (retireSelf st wd "").rootWatches =
      eraseKey (eventPath st wd "") st.rootWatches from rfl,
    eraseKey_eraseKey, eraseKey_of_not_mem _ _ hdot2]

theorem C7_retire_removes_and_idempotent_witness :
    lookupKey "." (WatchMaps.mk [((5 : Int), "/a")] [("/a", "proj")]).rootWatches = none ∧
    (lookupKey (5 : Int)
        (retireSelf (WatchMaps.mk [((5 : Int), "/a")] [("/a", "proj")]) 5 "").wdToPath = none ∧
      lookupKey (eventPath (WatchMaps.mk [((5 : Int), "/a")] [("/a", "proj")]) 5 "")
        (retireSelf (WatchMaps.mk [((5 : Int), "/a")] [("/a", "proj")]) 5 "").rootWatches =
        none ∧
      retireSelf (retireSelf (WatchMaps.mk [((5 : Int), "/a")] [("/a", "proj")]) 5 "") 5 "" =
        retireSelf (WatchMaps.mk [((5 : Int), "/a")] [("/a", "proj")]) 5 "") :=
  ⟨by decide, C7_retire_removes_and_idempotent _ 5 (by decide)⟩

/-- C7 counterexample: if the registry does contain a root at the path ".",
a duplicate retirement notice is not idempotent: once the handle entry is
gone, the duplicate resolves to the path "." and deletes that registry
entry, so processing the notice twice differs from processing it once. -/
theorem C7_counterexample :
    retireSelf (retireSelf (WatchMaps.mk [((5 : Int), "/a")] [(".", "proj")]) 5 "") 5 "" ≠
      retireSelf (WatchMaps.mk [((5 : Int), "/a")] [(".", "proj")]) 5 "" := by
  decide

/-! ## Watch.handleEvents: the debouncer.

handleEvents blocks for a first event, then sets timer := time.After(
eventBucketSize) once, drains and discards further events in a select loop
without touching the timer, breaks when the timer fires, and then invokes
the callback captured under the mutex. The model below maps a sorted list
of event arrival times to the list of callback invocation times; an event
is drained by the running burst exactly when it arrives before the fixed
deadline of that burst. -/

/-- eventBucketSize = 3 * time.Second, modelled in seconds. -/
def eventBucketSize : Nat := 3

def callbackTimes : List Nat → List Nat
  | [] => []
  | t :: rest =>
    (t + eventBucketSize) ::
      callbackTimes (rest.filter (fun e => decide (t + eventBucketSize ≤ e)))
termination_by l => l.length
decreasing_by simp only [List.length_cons]; exact Nat.lt_succ_of_le (List.length_filter_le _ _)

/-- Modelled from the spec: the debouncer the specification describes
restarts the quiet-period timer on each event of a burst, so the burst
deadline is pushed to three seconds after the last drained event. Defined
only for comparison with the code model callbackTimes. -/
def specBurstDeadline (t0 : Nat) (events : List Nat) : Nat :=
  events.foldl (fun d e => if e < d then e + eventBucketSize else d) (t0 + eventBucketSize)

/-- C2 amended: on the first event of a burst handleEvents starts a fixed
three-second window; every further event inside the window is drained and
discarded without restarting the timer, and when the window elapses the
currently registered callback is invoked exactly once. -/
theorem C2_fixed_window (t0 : Nat) (events : List Nat)
    (hin : ∀ e ∈ events, e < t0 + eventBucketSize) :
    callbackTimes (t0 :: events) = [t0 + eventBucketSize] := by
  rw [callbackTimes]
  rw [show events.filter (fun e => decide (t0 + eventBucketSize ≤ e)) = [] from by
    rw [List.filter_eq_nil_iff]
    intro e he
    simpa using Nat.not_le_of_lt (hin e he)]
  simp [callbackTimes]

theorem C2_fixed_window_witness :
    (∀ e ∈ [(1 : Nat), 2], e < 0 + eventBucketSize) ∧
    callbackTimes [0, 1, 2] = [0 + eventBucketSize] :=
  ⟨by decide, C2_fixed_window 0 [1, 2] (by decide)⟩

/-- C2 counterexample: with events at times 0 and 2, handleEvents fires the
callback at time 3, only one second after the last drained event, so the
quiet-period timer is not restarted on further events; the restarting
debouncer described by the claim would fire at time 5. -/
theorem C2_counterexample :
    callbackTimes [0, 2] = [3] ∧
    specBurstDeadline 0 [2] = 5 ∧
    ¬ (2 + eventBucketSize ≤ 3) := by
  refine ⟨?_, by decide, by decide⟩
  rw [callbackTimes]
  rw [show [2].filter (fun e => decide (0 + eventBucketSize ≤ e)) = [] from by decide]
  simp [callbackTimes, eventBucketSize]

/-! ## The advisory lock (function lock, called from Start).

lock loops calling unix.Flock(fd, LOCK_NB | LOCK_EX): nil ends the loop
with success, EINTR retries the syscall, EWOULDBLOCK reports that another
watch process is already running, and any other error is reported as a
distinct locking error. The i-th iteration of the loop observes results i;
fuel bounds the number of modelled iterations. -/

inductive FlockResult where
  | ok
  | eintr
  | ewouldblock
  | otherError (errno : Nat)
deriving DecidableEq

inductive LockResult where
  | ok
  | alreadyRunning
  | lockError (errno : Nat)
deriving DecidableEq

def LOCK_EX : Nat := 2

def LOCK_NB : Nat := 4

/-- The flags the code passes to unix.Flock: nonblocking, exclusive. -/
def flockFlags : Nat := LOCK_NB ||| LOCK_EX

def lockLoop (results : Nat → FlockResult) : Nat → Nat → Option LockResult
  | _, 0 => none
  | i, fuel + 1 =>
    match results i with
    | .ok => some .ok
    | .eintr => lockLoop results (i + 1) fuel
    | .ewouldblock => some .alreadyRunning
    | .otherError e => some (.lockError e)

theorem lockLoop_skip (results : Nat → FlockResult) (n : Nat) :
    ∀ i fuel, (∀ j, j < n → results (i + j) = .eintr) →
      lockLoop results i (n + fuel) = lockLoop results (i + n) fuel := by
  induction n with
  | zero => intro i fuel _; simp
  | succ n ih =>
    intro i fuel h
    rw [show n + 1 + fuel = (n + fuel) + 1 from by omega, lockLoop]
    rw [show results i = .eintr from by simpa using h 0 (by omega)]
    rw [ih (i + 1) fuel (fun j hj => by
      rw [show i + 1 + j = i + (j + 1) from by omega]
      exact h (j + 1) (by omega))]
    rw [show i + 1 + n = i + (n + 1) from by omega]

/-- C8: the lock is taken with the nonblocking exclusive Flock flags; every
interrupted call before the first decisive result is retried, a would-block
result yields the already-running error, success yields ok, and any other
failure yields a lock error carrying its errno, an error distinct from the
already-running one. -/
theorem C8_lock_behaviour (results : Nat → FlockResult) (n : Nat)
    (hretry : ∀ j, j < n → results j = .eintr) :
    flockFlags = LOCK_EX ||| LOCK_NB ∧
    (results n = .ewouldblock → lockLoop results 0 (n + 1) = some .alreadyRunning) ∧
    (results n = .ok → lockLoop results 0 (n + 1) = some .ok) ∧
    (∀ e, results n = .otherError e → lockLoop results 0 (n + 1) = some (.lockError e)) ∧
    (∀ e, LockResult.alreadyRunning ≠ LockResult.lockError e) := by
  have hskip : lockLoop results 0 (n + 1) = lockLoop results n 1 := by
    have := lockLoop_skip results n 0 1 (fun j hj => by simpa using hretry j hj)
    simpa using this
  refine ⟨by decide, ?_, ?_, ?_, fun e h => by cases h⟩
  · intro h
    rw [hskip, lockLoop, h]
  · intro h
    rw [hskip, lockLoop, h]
  · intro e h
    rw [hskip, lockLoop, h]

/-- A concrete sequence of Flock outcomes: one interruption, then
contention. -/
def c8Oracle : Nat → FlockResult :=
  fun i => if i = 0 then FlockResult.eintr else .ewouldblock

theorem C8_lock_behaviour_witness :
    (∀ j, j < 1 → c8Oracle j = .eintr) ∧
    (flockFlags = LOCK_EX ||| LOCK_NB ∧
      (c8Oracle 1 = .ewouldblock → lockLoop c8Oracle 0 2 = some .alreadyRunning) ∧
      (c8Oracle 1 = .ok → lockLoop c8Oracle 0 2 = some .ok) ∧
      (∀ e, c8Oracle 1 = .otherError e → lockLoop c8Oracle 0 2 = some (.lockError e)) ∧
      (∀ e, LockResult.alreadyRunning ≠ LockResult.lockError e)) :=
  ⟨fun j hj => by interval_cases j; rfl,
    C8_lock_behaviour c8Oracle 1 (fun j hj => by interval_cases j; rfl)⟩

/-! ## Status: the tick sidecar of the time-tracking collaborator.

Status.MarshalJSON serializes only tick, project_name and project_id
(json.Marshal emits map keys sorted); Status.UnmarshalJSON reads those
fields back, and Read builds a fresh Status whose remaining fields are zero
valued, so timeEntryID is always empty after a reload. Status.Stop posts to
Sprintf("time_entries/%s/stop", s.timeEntryID). time.Time is modelled as a
natural number instant; Format and Parse are modelled by an injective
decimal rendering, which is all this development relies on. -/

structure GoStatus where
  tgStateDir : String
  latestTick : Nat
  projectName : String
  projectID : String
  timeEntryID : String
deriving DecidableEq

def digitsAux : Nat → Nat → List Char
  | 0, _ => []
  | fuel + 1, n =>
    if n < 10 then [Char.ofNat (48 + n)]
    else digitsAux fuel (n / 10) ++ [Char.ofNat (48 + n % 10)]

/-- Model of latestTick.Format(time.RFC3339). -/
def formatRFC3339 (t : Nat) : String := String.mk (digitsAux (t + 1) t)

def parseDigitsAux : Nat → List Char → Option Nat
  | acc, [] => some acc
  | acc, c :: rest =>
    if 48 ≤ c.toNat ∧ c.toNat ≤ 57 then parseDigitsAux (acc * 10 + (c.toNat - 48)) rest
    else none

/-- Model of time.Parse(time.RFC3339, s): fails on input that is not a
rendered instant. -/
def parseRFC3339 (s : String) : Option Nat :=
  match s.data with
  | [] => none
  | l => parseDigitsAux 0 l

/-- Model of Status.MarshalJSON: the map with exactly the keys tick,
project_name and project_id, in the sorted key order the json encoder
emits. -/
def statusMarshalJSON (s : GoStatus) : List (String × String) :=
  [("project_id", s.projectID), ("project_name", s.projectName),
    ("tick", formatRFC3339 s.latestTick)]

/-- Model of Read plus Status.UnmarshalJSON: a fresh Status holding the
state directory, with project fields and tick taken from the decoded map;
every field the document does not carry, timeEntryID included, stays at
its zero value. -/
def statusUnmarshalJSON (dir : String) (fields : List (String × String)) : Option GoStatus :=
  match parseRFC3339 ((lookupKey "tick" fields).getD "") with
  | none => none
  | some t =>
    some ⟨dir, t, (lookupKey "project_name" fields).getD "",
      (lookupKey "project_id" fields).getD "", ""⟩

def statusSaveThenRead (dir : String) (s : GoStatus) : Option GoStatus :=
  statusUnmarshalJSON dir (statusMarshalJSON s)

/-- The endpoint path Status.Stop posts to. -/
def stopPath (s : GoStatus) : String := "time_entries/" ++ s.timeEntryID ++ "/stop"

/-- C10: the serialized form of a Status carries exactly the fields
project_id, project_name and tick, so a Status read back after a save has
an empty timeEntryID whatever it was before, and a subsequent Stop on the
reloaded Status targets the endpoint time_entries//stop, whose time-entry
segment is empty. -/
theorem C10_status_stop_empty_id (dir : String) (s s2 : GoStatus)
    (h : statusSaveThenRead dir s = some s2) :
    (statusMarshalJSON s).map Prod.fst = ["project_id", "project_name", "tick"] ∧
    s2.timeEntryID = "" ∧
    stopPath s2 = "time_entries/" ++ "" ++ "/stop" ∧
    stopPath s2 = "time_entries//stop" := by
  have hid : s2.timeEntryID = "" := by
    rw [statusSaveThenRead, statusUnmarshalJSON] at h
    cases hp : parseRFC3339 ((lookupKey "tick" (statusMarshalJSON s)).getD "") with
    | none => rw [hp] at h; cases h
    | some t =>
      rw [hp] at h
      cases h
      rfl
  refine ⟨rfl, hid, ?_, ?_⟩
  · rw [stopPath, hid]
  · rw [stopPath, hid]
    rfl

theorem C10_status_stop_empty_id_witness :
    statusSaveThenRead "/st" ⟨"/st", 5, "pn", "pid", "OLDID"⟩ =
      some ⟨"/st", 5, "pn", "pid", ""⟩ ∧
    ((statusMarshalJSON ⟨"/st", 5, "pn", "pid", "OLDID"⟩).map Prod.fst =
        ["project_id", "project_name", "tick"] ∧
      (⟨"/st", 5, "pn", "pid", ""⟩ : GoStatus).timeEntryID = "" ∧
      stopPath ⟨"/st", 5, "pn", "pid", ""⟩ = "time_entries/" ++ "" ++ "/stop" ∧
      stopPath ⟨"/st", 5, "pn", "pid", ""⟩ = "time_entries//stop") :=
  ⟨by decide, C10_status_stop_empty_id "/st" _ _ (by decide)⟩

/-! ## findtest Watcher.watchInotifyFd: the record-consuming loop.

The loop consumes inotify records from buf between offsets start and end.
A record is a 16-byte header (SizeofInotifyEvent) whose last four bytes
are the little-endian name length, followed by that many name bytes. The
loop breaks to carry an incomplete record over to the next read when the
header does not fit; for the name it checks start+event.Len > end, which
omits the 16-byte header size, and otherwise consumes the record and
advances start by 16+len. -/

def sizeofInotifyEvent : Nat := 16

/-- The Len field of the record header starting at the given offset. -/
def eventLenAt (buf : List Nat) (start : Nat) : Nat :=
  buf.getD (start + 12) 0 + 256 * buf.getD (start + 13) 0 +
    65536 * buf.getD (start + 14) 0 + 16777216 * buf.getD (start + 15) 0

/-- Model of the consume loop of watchInotifyFd: returns the list of
consumed records as pairs of start offset and name length, together with
the final start offset; the bytes between the final start offset and
endPos are the tail the function copies to the front of the buffer for the
next read. -/
def consumeEvents (buf : List Nat) : Nat → Nat → Nat → List (Nat × Nat) × Nat
  | start, _, 0 => ([], start)
  | start, endPos, fuel + 1 =>
    if start < endPos then
      if start + sizeofInotifyEvent > endPos then ([], start)
      else
        let len := eventLenAt buf start
        if start + len > endPos then ([], start)
        else
          let r := consumeEvents buf (start + sizeofInotifyEvent + len) endPos fuel
          ((start, len) :: r.1, r.2)
    else ([], start)

def consumeAll (buf : List Nat) (endPos : Nat) : List (Nat × Nat) × Nat :=
  consumeEvents buf 0 endPos (endPos + 1)

/-- A 20-byte read holding the first 20 bytes of a 24-byte record: a
16-byte header whose Len field is 8, followed by only 4 of the 8 name
bytes. -/
def c6Buf : List Nat :=
  [0, 0, 0, 0, 0, 0, 0, 0, 0, 0, 0, 0, 8, 0, 0, 0, 97, 97, 97, 97]

/-- C6 failing input: on a read that ends four bytes short of the record
boundary, the loop consumes the record anyway and advances start to 24,
past the 20 read bytes, because its completeness check start+event.Len>end
omits the 16-byte header; the incomplete 4-byte tail is not carried over
to the next read, contradicting the claim and the comment beside the
check. -/
theorem C6_incomplete_record_consumed :
    consumeAll c6Buf 20 = ([(0, 8)], 24) ∧
    0 + sizeofInotifyEvent + eventLenAt c6Buf 0 > 20 := by
  exact ⟨by decide, by decide⟩

/-! ## Watch.addWatch: the filepath.Walk descent installing monitors.

addWatch(path) runs filepath.Walk; for each visited entry the callback
skips plain files, returns SkipDir for hidden directories and for vendor
directories managed by dep or govendor, and otherwise registers an inotify
monitor on the directory. filepath.Walk invokes the callback on a
directory first and only afterwards reads the directory listing, once,
and recurses into each child. The trace below records the registration
and the listing of every accepted directory; paths are component lists
under the walk root. -/

def hiddenName (nm : String) : Bool :=
  match nm.data with
  | c :: _ => decide (c = '.')
  | [] => false

def hasEntry (l : List FsNode) (nm : String) : Bool :=
  l.any (fun c => decide (c.name = nm))

/-- The dep and govendor heuristics of the walk callback: a directory
named vendor is skipped when a Gopkg.lock sibling or a vendor.json child
exists. -/
def vendorSkip (parentEntries : List FsNode) (nm : String) (children : List FsNode) : Bool :=
  decide (nm = "vendor") &&
    (hasEntry parentEntries "Gopkg.lock" || hasEntry children "vendor.json")

inductive WOp where
  | register (path : List String)
  | list (path : List String)
deriving DecidableEq

def WOp.path : WOp → List String
  | .register p => p
  | .list p => p

mutual

def walkNode (parentEntries : List FsNode) (pre : List String) : FsNode → List WOp
  | .file _ => []
  | .dir nm children =>
    if hiddenName nm then []
    else if vendorSkip parentEntries nm children then []
    else
      .register (pre ++ [nm]) :: .list (pre ++ [nm]) ::
        walkKids children (pre ++ [nm]) children
termination_by n => sizeOf n

def walkKids (parentEntries : List FsNode) (pre : List String) : List FsNode → List WOp
  | [] => []
  | c :: rest => walkNode parentEntries pre c ++ walkKids parentEntries pre rest
termination_by cs => sizeOf cs

end

/-- Trace of Watch.addWatch on a root directory entry; parentEntries are
the sibling entries of the root, consulted by the vendor heuristic. -/
def addWatchTrace (parentEntries : List FsNode) (root : FsNode) : List WOp :=
  walkNode parentEntries [] root

def c1Root : FsNode := .dir "r" [.dir "s" []]

def childOf (d c : List String) : Bool :=
  decide (c.length = d.length + 1) && decide (c.take d.length = d)

/-- True when some directory has a new child registered after the last
listing of that directory: the situation the rescan-until-fixpoint
discipline of the claim rules out, since a final listing that discovered a
new un-watched child would have to be followed by another listing. -/
def newChildAfterLastList (tr : List WOp) : Bool :=
  (List.range tr.length).any (fun i =>
    match tr.getD i (.list []) with
    | .list d =>
      ((tr.drop (i + 1)).all (fun op => decide (op ≠ .list d))) &&
        ((tr.drop (i + 1)).any (fun op =>
          match op with
          | .register c => childOf d c
          | .list _ => false))
    | .register _ => false)

/-- C1 counterexample: walking a root with a single subdirectory lists the
root exactly once; that one listing discovers the new un-watched child s,
which is registered after it, and the root is never listed again, so the
listing is not repeated until an iteration discovers zero new un-watched
children. -/
theorem C1_counterexample :
    addWatchTrace [] c1Root =
      [.register ["r"], .list ["r"], .register ["r", "s"], .list ["r", "s"]] ∧
    newChildAfterLastList
      [.register ["r"], .list ["r"], .register ["r", "s"], .list ["r", "s"]] = true := by
  constructor
  · have h1 : hiddenName "r" = false := rfl
    have h2 : hiddenName "s" = false := rfl
    have h3 : vendorSkip [] "r" [FsNode.dir "s" []] = false := rfl
    have h4 : vendorSkip [FsNode.dir "s" []] "s" [] = false := rfl
    simp [addWatchTrace, walkNode, walkKids, c1Root, h1, h2, h3, h4]
  · decide

/-- Balance scan for one directory path d: processing the trace left to
right, a listing of d is admissible only while the number of earlier
registrations of d exceeds the number of earlier listings of d; bal is
that difference. regLeadsList d tr 0 = true says every listing of d in tr
is preceded by its own earlier registration of d. -/
def regLeadsList (d : List String) : List WOp → Nat → Bool
  | [], _ => true
  | op :: rest, bal =>
    if op = WOp.list d then
      match bal with
      | 0 => false
      | b + 1 => regLeadsList d rest b
    else if op = WOp.register d then regLeadsList d rest (bal + 1)
    else regLeadsList d rest bal

theorem regLeadsList_cons_eq (d : List String) (op : WOp) (rest : List WOp) (bal : Nat) :
    regLeadsList d (op :: rest) bal =
      (if op = WOp.list d then
        match bal with
        | 0 => false
        | b + 1 => regLeadsList d rest b
      else if op = WOp.register d then regLeadsList d rest (bal + 1)
      else regLeadsList d rest bal) := rfl

def balAfter (d : List String) : List WOp → Nat → Nat
  | [], bal => bal
  | op :: rest, bal =>
    if op = WOp.list d then balAfter d rest (bal - 1)
    else if op = WOp.register d then balAfter d rest (bal + 1)
    else balAfter d rest bal

theorem regLeadsList_append (d : List String) (t1 t2 : List WOp) :
    ∀ bal, regLeadsList d (t1 ++ t2) bal =
      (regLeadsList d t1 bal && regLeadsList d t2 (balAfter d t1 bal)) := by
  induction t1 with
  | nil => intro bal; simp [regLeadsList, balAfter]
  | cons op rest ih =>
    intro bal
    by_cases h1 : op = WOp.list d
    · cases bal with
      | zero => simp [regLeadsList, h1, balAfter]
      | succ b => simp [regLeadsList, h1, balAfter, ih]
    · by_cases h2 : op = WOp.register d
      · simp [regLeadsList, h1, h2, balAfter, ih]
      · simp [regLeadsList, h1, h2, balAfter, ih]

theorem regLeadsList_mono (d : List String) (t : List WOp) :
    ∀ b1 b2, b1 ≤ b2 → regLeadsList d t b1 = true → regLeadsList d t b2 = true := by
  induction t with
  | nil => intro _ _ _ _; rfl
  | cons op rest ih =>
    intro b1 b2 hle h
    by_cases h1 : op = WOp.list d
    · cases b1 with
      | zero => rw [regLeadsList, if_pos h1] at h; cases h
      | succ b =>
        obtain ⟨b2p, rfl⟩ : ∃ x, b2 = x + 1 := ⟨b2 - 1, by omega⟩
        rw [regLeadsList, if_pos h1] at h ⊢
        exact ih b b2p (by omega) h
    · by_cases h2 : op = WOp.register d
      · rw [regLeadsList_cons_eq, if_neg h1, if_pos h2] at h ⊢
        exact ih _ _ (by omega) h
      · rw [regLeadsList_cons_eq, if_neg h1, if_neg h2] at h ⊢
        exact ih _ _ hle h

theorem regLeadsList_append_zero (d : List String) (t1 t2 : List WOp)
    (h1 : regLeadsList d t1 0 = true) (h2 : regLeadsList d t2 0 = true) :
    regLeadsList d (t1 ++ t2) 0 = true := by
  rw [regLeadsList_append, h1,
    regLeadsList_mono d t2 0 (balAfter d t1 0) (Nat.zero_le _) h2]
  rfl

theorem regLeadsList_cons2 (d f : List String) (tr : List WOp)
    (h : regLeadsList d tr 0 = true) :
    regLeadsList d (.register f :: .list f :: tr) 0 = true := by
  by_cases hdf : d = f
  · subst hdf
    have hrl : ¬ (WOp.register d = WOp.list d) := by simp
    rw [regLeadsList, if_neg hrl, if_pos rfl]
    rw [regLeadsList, if_pos rfl]
    exact h
  · have e1 : ¬ (WOp.register f = WOp.list d) := by simp
    have e2 : ¬ (WOp.register f = WOp.register d) := by
      intro hcon
      injection hcon with hfd
      exact hdf hfd.symm
    have e3 : ¬ (WOp.list f = WOp.list d) := by
      intro hcon
      injection hcon with hfd
      exact hdf hfd.symm
    have e4 : ¬ (WOp.list f = WOp.register d) := by simp
    rw [regLeadsList, if_neg e1, if_neg e2]
    rw [regLeadsList, if_neg e3, if_neg e4]
    exact h

theorem walk_regLeads (k : Nat) :
    (∀ parentEntries pre n, sizeOf n ≤ k → ∀ d,
      regLeadsList d (walkNode parentEntries pre n) 0 = true) ∧
    (∀ parentEntries pre cs, sizeOf cs ≤ k → ∀ d,
      regLeadsList d (walkKids parentEntries pre cs) 0 = true) := by
  induction k with
  | zero =>
    constructor
    · intro pe pre n hn d
      exfalso
      cases n <;> simp_arith at hn
    · intro pe pre cs hcs d
      exfalso
      cases cs <;> simp_arith at hcs
  | succ k ih =>
    constructor
    · intro pe pre n hn d
      cases n with
      | file nm => simp [walkNode, regLeadsList]
      | dir nm children =>
        have hsz : sizeOf children ≤ k := by
          simp_arith at hn
          omega
        by_cases hh : hiddenName nm
        · simp [walkNode, hh, regLeadsList]
        · by_cases hv : vendorSkip pe nm children
          · simp [walkNode, hh, hv, regLeadsList]
          · rw [show walkNode pe pre (.dir nm children) =
              .register (pre ++ [nm]) :: .list (pre ++ [nm]) ::
                walkKids children (pre ++ [nm]) children from by
              simp [walkNode, hh, hv]]
            exact regLeadsList_cons2 d (pre ++ [nm]) _
              (ih.2 children (pre ++ [nm]) children hsz d)
    · intro pe pre cs hcs d
      cases cs with
      | nil => simp [walkKids, regLeadsList]
      | cons c rest =>
        have hszc : sizeOf c ≤ k := by
          simp_arith at hcs
          omega
        have hszr : sizeOf rest ≤ k := by
          simp_arith at hcs
          omega
        rw [show walkKids pe pre (c :: rest) =
          walkNode pe pre c ++ walkKids pe pre rest from by simp [walkKids]]
        exact regLeadsList_append_zero d _ _ (ih.1 pe pre c hszc d)
          (ih.2 pe pre rest hszr d)

theorem walk_path_shape (k : Nat) :
    (∀ parentEntries pre n, sizeOf n ≤ k → ∀ op ∈ walkNode parentEntries pre n,
      ∃ r, op.path = pre ++ n.name :: r) ∧
    (∀ parentEntries pre cs, sizeOf cs ≤ k → ∀ op ∈ walkKids parentEntries pre cs,
      ∃ c r, c ∈ cs ∧ op.path = pre ++ c.name :: r) := by
  induction k with
  | zero =>
    constructor <;> (intro pe pre x hx; exfalso; cases x <;> simp_arith at hx)
  | succ k ih =>
    constructor
    · intro pe pre n hn op hop
      cases n with
      | file nm => simp [walkNode] at hop
      | dir nm children =>
        have hsz : sizeOf children ≤ k := by
          simp_arith at hn
          omega
        by_cases hh : hiddenName nm
        · simp [walkNode, hh] at hop
        · by_cases hv : vendorSkip pe nm children
          · simp [walkNode, hh, hv] at hop
          · rw [show walkNode pe pre (.dir nm children) =
              .register (pre ++ [nm]) :: .list (pre ++ [nm]) ::
                walkKids children (pre ++ [nm]) children from by
              simp [walkNode, hh, hv]] at hop
            rcases List.mem_cons.mp hop with rfl | hop2
            · exact ⟨[], by simp [WOp.path, FsNode.name]⟩
            · rcases List.mem_cons.mp hop2 with rfl | hop3
              · exact ⟨[], by simp [WOp.path, FsNode.name]⟩
              · obtain ⟨c, r, _, hpath⟩ :=
                  ih.2 children (pre ++ [nm]) children hsz op hop3
                exact ⟨c.name :: r, by rw [hpath]; simp [FsNode.name]⟩
    · intro pe pre cs hcs op hop
      cases cs with
      | nil => simp [walkKids] at hop
      | cons c rest =>
        have hszc : sizeOf c ≤ k := by
          simp_arith at hcs
          omega
        have hszr : sizeOf rest ≤ k := by
          simp_arith at hcs
          omega
        rw [show walkKids pe pre (c :: rest) =
          walkNode pe pre c ++ walkKids pe pre rest from by simp [walkKids]] at hop
        rcases List.mem_append.mp hop with hmem | hmem
        · obtain ⟨r, hpath⟩ := ih.1 pe pre c hszc op hmem
          exact ⟨c, r, List.mem_cons_self c rest, hpath⟩
        · obtain ⟨c2, r, hc2, hpath⟩ := ih.2 pe pre rest hszr op hmem
          exact ⟨c2, r, List.mem_cons_of_mem c hc2, hpath⟩

def distinctNames : List FsNode → Bool
  | [] => true
  | c :: rest => !(hasEntry rest c.name) && distinctNames rest

mutual

/-- A filesystem tree is well formed when no directory holds two entries
with the same name, so that entries have distinct paths. -/
def wellFormedB : FsNode → Bool
  | .file _ => true
  | .dir _ children => distinctNames children && wellFormedList children
termination_by n => sizeOf n

def wellFormedList : List FsNode → Bool
  | [] => true
  | c :: rest => wellFormedB c && wellFormedList rest
termination_by cs => sizeOf cs

end

theorem walk_list_once (k : Nat) :
    (∀ parentEntries pre n, sizeOf n ≤ k → wellFormedB n = true → ∀ d,
      (walkNode parentEntries pre n).countP (fun op => decide (op = WOp.list d)) ≤ 1) ∧
    (∀ parentEntries pre cs, sizeOf cs ≤ k → distinctNames cs = true →
      wellFormedList cs = true → ∀ d,
      (walkKids parentEntries pre cs).countP (fun op => decide (op = WOp.list d)) ≤ 1) := by
  induction k with
  | zero =>
    constructor <;> (intro pe pre x hx; exfalso; cases x <;> simp_arith at hx)
  | succ k ih =>
    constructor
    · intro pe pre n hn hwf d
      cases n with
      | file nm => simp [walkNode]
      | dir nm children =>
        have hsz : sizeOf children ≤ k := by
          simp_arith at hn
          omega
        have hwf2 : distinctNames children = true ∧ wellFormedList children = true := by
          rw [show wellFormedB (.dir nm children) =
            (distinctNames children && wellFormedList children) from by
            simp [wellFormedB]] at hwf
          exact Bool.and_eq_true_iff.mp hwf
        by_cases hh : hiddenName nm
        · simp [walkNode, hh]
        · by_cases hv : vendorSkip pe nm children
          · simp [walkNode, hh, hv]
          · rw [show walkNode pe pre (.dir nm children) =
              .register (pre ++ [nm]) :: .list (pre ++ [nm]) ::
                walkKids children (pre ++ [nm]) children from by
              simp [walkNode, hh, hv]]
            have hreg : (decide (WOp.register (pre ++ [nm]) = WOp.list d)) = false := by
              simp
            by_cases hd : d = pre ++ [nm]
            · subst hd
              have hkids :
                  (walkKids children (pre ++ [nm]) children).countP
                    (fun op => decide (op = WOp.list (pre ++ [nm]))) = 0 := by
                rw [List.countP_eq_zero]
                intro op hop hp
                have hopeq : op = WOp.list (pre ++ [nm]) := of_decide_eq_true hp
                obtain ⟨c, r, _, hpath⟩ :=
                  (walk_path_shape k).2 children (pre ++ [nm]) children hsz op hop
                rw [hopeq] at hpath
                have hlong : pre ++ [nm] = (pre ++ [nm]) ++ c.name :: r := by
                  simp only [WOp.path] at hpath
                  exact hpath
                have hlen := congrArg List.length hlong
                simp at hlen
              rw [List.countP_cons, List.countP_cons, hkids]
              simp
            · have hlst : (decide (WOp.list (pre ++ [nm]) = WOp.list d)) = false := by
                simp
                intro hcon
                exact hd hcon.symm
              simp only [List.countP_cons, hreg, hlst]
              simp only [if_false, Bool.false_eq_true, Nat.add_zero]
              exact ih.2 children (pre ++ [nm]) children hsz hwf2.1 hwf2.2 d
    · intro pe pre cs hcs hdn hwfl d
      cases cs with
      | nil => simp [walkKids]
      | cons c rest =>
        have hszc : sizeOf c ≤ k := by
          simp_arith at hcs
          omega
        have hszr : sizeOf rest ≤ k := by
          simp_arith at hcs
          omega
        have hdn2 : hasEntry rest c.name = false ∧ distinctNames rest = true := by
          rw [show distinctNames (c :: rest) =
            (!(hasEntry rest c.name) && distinctNames rest) from rfl] at hdn
          have := Bool.and_eq_true_iff.mp hdn
          exact ⟨by simpa using this.1, this.2⟩
        have hwfl2 : wellFormedB c = true ∧ wellFormedList rest = true := by
          rw [show wellFormedList (c :: rest) =
            (wellFormedB c && wellFormedList rest) from by simp [wellFormedList]] at hwfl
          exact Bool.and_eq_true_iff.mp hwfl
        rw [show walkKids pe pre (c :: rest) =
          walkNode pe pre c ++ walkKids pe pre rest from by simp [walkKids]]
        rw [List.countP_append]
        by_cases hc1 : (walkNode pe pre c).countP (fun op => decide (op = WOp.list d)) = 0
        · rw [hc1, Nat.zero_add]
          exact ih.2 pe pre rest hszr hdn2.2 hwfl2.2 d
        · have hpos : 0 < (walkNode pe pre c).countP (fun op => decide (op = WOp.list d)) :=
            Nat.pos_of_ne_zero hc1
          obtain ⟨op, hop, hp⟩ := List.countP_pos_iff.mp hpos
          have hopeq : op = WOp.list d := of_decide_eq_true hp
          obtain ⟨r, hpath⟩ := (walk_path_shape k).1 pe pre c hszc op hop
          rw [hopeq] at hpath
          have hd : d = pre ++ c.name :: r := by simpa [WOp.path] using hpath
          have hc2 : (walkKids pe pre rest).countP (fun op => decide (op = WOp.list d)) = 0 := by
            rw [List.countP_eq_zero]
            intro op2 hop2 hp2
            have hop2eq : op2 = WOp.list d := of_decide_eq_true hp2
            obtain ⟨c2, r2, hc2mem, hpath2⟩ :=
              (walk_path_shape k).2 pe pre rest hszr op2 hop2
            rw [hop2eq] at hpath2
            have hd2 : d = pre ++ c2.name :: r2 := by simpa [WOp.path] using hpath2
            have heq : pre ++ c.name :: r = pre ++ c2.name :: r2 := by rw [← hd, ← hd2]
            have hcons := List.append_cancel_left heq
            have hnames : c.name = c2.name := by injection hcons
            have hentry : hasEntry rest c.name = true := by
              rw [hasEntry, List.any_eq_true]
              exact ⟨c2, hc2mem, decide_eq_true hnames.symm⟩
            rw [hentry] at hdn2
            exact absurd hdn2.1 (by simp)
          rw [hc2, Nat.add_zero]
          exact ih.1 pe pre c hszc hwfl2.1 d

theorem regLeads_count_split (d : List String) (u : List WOp) :
    ∀ (bal : Nat) (v : List WOp), regLeadsList d (u ++ WOp.list d :: v) bal = true →
      1 + u.countP (fun op => decide (op = WOp.list d)) ≤
        bal + u.countP (fun op => decide (op = WOp.register d)) := by
  induction u with
  | nil =>
    intro bal v h
    cases bal with
    | zero =>
      rw [List.nil_append, regLeadsList_cons_eq, if_pos rfl] at h
      cases h
    | succ b =>
      simp only [List.countP_nil]
      omega
  | cons op u2 ih =>
    intro bal v h
    rw [List.cons_append, regLeadsList_cons_eq] at h
    by_cases h1 : op = WOp.list d
    · rw [if_pos h1] at h
      cases bal with
      | zero => cases h
      | succ b =>
        have hrec := ih b v h
        have e1 : (decide (op = WOp.list d)) = true := decide_eq_true h1
        have e2 : (decide (op = WOp.register d)) = false := by
          rw [h1]
          simp
        simp [List.countP_cons, e1, e2]
        omega
    · rw [if_neg h1] at h
      by_cases h2 : op = WOp.register d
      · rw [if_pos h2] at h
        have hrec := ih (bal + 1) v h
        have e1 : (decide (op = WOp.list d)) = false := decide_eq_false h1
        have e2 : (decide (op = WOp.register d)) = true := decide_eq_true h2
        simp [List.countP_cons, e1, e2]
        omega
      · rw [if_neg h2] at h
        have hrec := ih bal v h
        have e1 : (decide (op = WOp.list d)) = false := decide_eq_false h1
        have e2 : (decide (op = WOp.register d)) = false := decide_eq_false h2
        simp [List.countP_cons, e1, e2]
        omega

/-- C1 amended: for every directory the filter accepts, the walk registers
the kernel monitor before any listing of that directory appears in the
trace, but each directory is listed at most once: addWatch performs a
single listing pass per directory and has no rescan loop repeating the
listing until an iteration discovers zero new un-watched children. -/
theorem C1_register_before_single_listing (parentEntries : List FsNode) (root : FsNode)
    (hwf : wellFormedB root = true) :
    (∀ d u v, addWatchTrace parentEntries root = u ++ WOp.list d :: v →
      WOp.register d ∈ u) ∧
    (∀ d, (addWatchTrace parentEntries root).countP
      (fun op => decide (op = WOp.list d)) ≤ 1) := by
  constructor
  · intro d u v hsplit
    have hlead : regLeadsList d (addWatchTrace parentEntries root) 0 = true :=
      (walk_regLeads (sizeOf root)).1 parentEntries [] root (Nat.le_refl _) d
    rw [hsplit] at hlead
    have hcount := regLeads_count_split d u 0 v hlead
    have hpos : 0 < u.countP (fun op => decide (op = WOp.register d)) := by omega
    obtain ⟨a, ha, hpa⟩ := List.countP_pos_iff.mp hpos
    have haeq : a = WOp.register d := of_decide_eq_true hpa
    rw [← haeq]
    exact ha
  · intro d
    exact (walk_list_once (sizeOf root)).1 parentEntries [] root (Nat.le_refl _) hwf d

theorem C1_register_before_single_listing_witness :
    wellFormedB c1Root = true ∧
    ((∀ d u v, addWatchTrace [] c1Root = u ++ WOp.list d :: v → WOp.register d ∈ u) ∧
      (∀ d, (addWatchTrace [] c1Root).countP (fun op => decide (op = WOp.list d)) ≤ 1)) :=
  ⟨by simp [c1Root, wellFormedB, wellFormedList, distinctNames, hasEntry],
    C1_register_before_single_listing [] c1Root
      (by simp [c1Root, wellFormedB, wellFormedList, distinctNames, hasEntry])⟩

end TogglWatcher
